import Mathlib

/-!
Shallow embedding of the `bvarint` crate (`src/lib.rs`): an order-preserving
variable-length encoding of unsigned 64-bit integers ("a better varint").
Bytes are modelled as natural numbers below 256, byte buffers as `List Nat`,
the `io::Write` sink as the list of bytes written, and the `io::Read` source
as a byte list consumed from the front.  Machine `u64` values are natural
numbers with the bound `v < 2 ^ 64` carried as a hypothesis where it matters;
`as u8` casts become `% 256`.
-/

namespace Bvarint

/-- Bit length of `n`, computed with explicit fuel so the recursion is
structural and the kernel can evaluate it.  For `n < 2 ^ fuel` this is the
position of the highest set bit plus one, matching
`64 - u64::leading_zeros(n)` when `fuel = 64`. -/
def bitLenAux : Nat → Nat → Nat
  | 0, _ => 0
  | fuel + 1, n => if n = 0 then 0 else bitLenAux fuel (n / 2) + 1

/-- Model of `u64::leading_zeros`: 64 minus the bit length of the value. -/
def leading_zeros (v : Nat) : Nat := 64 - bitLenAux 64 v

/-- The `width` computed by the encoder's general branch:
`((64 + 8 - 1 - v.leading_zeros()) / 8) as usize`. -/
def width (v : Nat) : Nat := (64 + 8 - 1 - leading_zeros v) / 8

/-- Model of `u64::to_be_bytes`: the eight big-endian bytes of `v`. -/
def to_be_bytes (v : Nat) : List Nat :=
  [(v >>> 56) % 256, (v >>> 48) % 256, (v >>> 40) % 256, (v >>> 32) % 256,
   (v >>> 24) % 256, (v >>> 16) % 256, (v >>> 8) % 256, v % 256]

/-- Model of `write_bvarint`: the bytes written to the sink for value `v`,
branch by branch from the Rust `match`.  The sink (`impl io::Write`) is
modelled as the produced byte list; the Rust function's only failure mode is
a propagated sink I/O error, so the pure model is total. -/
def write_bvarint (v : Nat) : List Nat :=
  if v ≤ 0xf0 then
    [v % 256]
  else if v ≤ 0x7ef then
    let d := v - 0xf0
    [((d >>> 8) + 0xf1) % 256, d % 256]
  else if v ≤ 0x107ef then
    let d := v - 0x7f0
    [0xf8, (d >>> 8) % 256, d % 256]
  else
    ((0xf9 - 3 + width v) % 256) :: (to_be_bytes v).drop (8 - width v)

/-- Decode errors: `truncated` models the `io::ErrorKind::UnexpectedEof`
error raised by `read_exact` on input exhaustion; `outOfRange` models the
`io::ErrorKind::InvalidData` ("exceeds u64::MAX") error returned for the
`0xff` sentinel. -/
inductive ReadErr where
  | truncated : ReadErr
  | outOfRange : ReadErr
  deriving DecidableEq, Repr

/-- Model of `u64::from_be_bytes` on a list of bytes, most significant
first. -/
def u64_from_be_bytes (l : List Nat) : Nat :=
  l.foldl (fun acc b => acc * 256 + b) 0

/-- Model of `read_bvarint`: the reader is a byte list consumed from the
front; the result pairs the decoded value (or error) with the bytes left
unread.  Each `read_exact` takes the requested count from the front and
fails with `truncated` when fewer bytes remain (the reader consumes what is
available on failure, modelled by returning `[]`).  In the general branch
the buffer `a` handed to `from_be_bytes` is the zero-initialised prefix
followed by the payload bytes just read, exactly as in the Rust code. -/
def read_bvarint (s : List Nat) : Except ReadErr Nat × List Nat :=
  match s with
  | [] => (Except.error ReadErr.truncated, [])
  | a7 :: rest =>
    if a7 ≤ 0xf0 then
      (Except.ok a7, rest)
    else if a7 ≤ 0xf7 then
      match rest with
      | [] => (Except.error ReadErr.truncated, [])
      | a6 :: rest2 => (Except.ok (0xf0 + ((a7 - 0xf1) <<< 8) + a6), rest2)
    else if a7 = 0xf8 then
      match rest with
      | a6 :: a7b :: rest2 => (Except.ok (0x7f0 + (a6 <<< 8) + a7b), rest2)
      | _ => (Except.error ReadErr.truncated, [])
    else if a7 ≤ 0xfe then
      let w := a7 - 0xf9 + 3
      if w ≤ rest.length then
        (Except.ok (u64_from_be_bytes (List.replicate (8 - w) 0 ++ rest.take w)),
          rest.drop w)
      else
        (Except.error ReadErr.truncated, [])
    else
      (Except.error ReadErr.outOfRange, rest)

/-- Rust's `u64::cmp`. -/
def cmp (a b : Nat) : Ordering :=
  if a < b then Ordering.lt else if a = b then Ordering.eq else Ordering.gt

/-- Rust's lexicographic `Ord` on byte sequences (`Vec<u8>::cmp`): compare
elementwise, a strict prefix is less than any extension. -/
def lexCompare : List Nat → List Nat → Ordering
  | [], [] => Ordering.eq
  | [], _ :: _ => Ordering.lt
  | _ :: _, [] => Ordering.gt
  | x :: xs, y :: ys =>
    match cmp x y with
    | Ordering.eq => lexCompare xs ys
    | o => o

/-- Big-endian byte list of fixed length `w` for value `v`, most significant
byte first; used to describe the payload the encoder's branches produce. -/
def beBytes : Nat → Nat → List Nat
  | 0, _ => []
  | w + 1, v => ((v / 256 ^ w) % 256) :: beBytes w v

deriving instance DecidableEq for Except

/-! ### Bit length and width -/

theorem bitLenAux_zero : ∀ fuel, bitLenAux fuel 0 = 0
  | 0 => rfl
  | _ + 1 => by simp [bitLenAux]

theorem bitLen_spec : ∀ fuel n, n < 2 ^ fuel → n ≠ 0 →
    ∃ L, bitLenAux fuel n = L + 1 ∧ 2 ^ L ≤ n ∧ n < 2 ^ (L + 1) := by
  intro fuel
  induction fuel with
  | zero => intro n hn h0; simp at hn; omega
  | succ fuel ih =>
    intro n hn h0
    by_cases h2 : n / 2 = 0
    · have hn1 : n = 1 := by omega
      subst hn1
      exact ⟨0, by simp [bitLenAux, bitLenAux_zero], by norm_num, by norm_num⟩
    · have hpow : (2 : Nat) ^ (fuel + 1) = 2 ^ fuel * 2 := pow_succ 2 fuel
      have hdiv : n / 2 < 2 ^ fuel := by omega
      obtain ⟨L, hL, hlo, hhi⟩ := ih (n / 2) hdiv h2
      have e1 : (2 : Nat) ^ (L + 1) = 2 ^ L * 2 := pow_succ 2 L
      have e2 : (2 : Nat) ^ (L + 1 + 1) = 2 ^ (L + 1) * 2 := pow_succ 2 (L + 1)
      refine ⟨L + 1, ?_, by omega, by omega⟩
      simp [bitLenAux, h0, hL]

theorem width_eq (v w : Nat) (h3 : 3 ≤ w) (h8 : w ≤ 8)
    (hlo : 2 ^ (8 * (w - 1)) ≤ v) (hhi : v < 2 ^ (8 * w)) : width v = w := by
  have hv64 : v < 2 ^ 64 :=
    lt_of_lt_of_le hhi (Nat.pow_le_pow_right (by norm_num) (by omega))
  have h0 : v ≠ 0 := by
    have := pow_pos (show (0 : Nat) < 2 by norm_num) (8 * (w - 1))
    omega
  obtain ⟨L, hL, hLlo, hLhi⟩ := bitLen_spec 64 v hv64 h0
  have hl1 : 8 * (w - 1) < L + 1 :=
    (Nat.pow_lt_pow_iff_right (by norm_num)).mp (lt_of_le_of_lt hlo hLhi)
  have hl2 : L < 8 * w :=
    (Nat.pow_lt_pow_iff_right (by norm_num)).mp (lt_of_le_of_lt hLlo hhi)
  unfold width leading_zeros
  rw [hL]
  omega

theorem exists_width (v : Nat) (hlo : 0x107f0 ≤ v) (hhi : v < 2 ^ 64) :
    ∃ w, 3 ≤ w ∧ w ≤ 8 ∧ 2 ^ (8 * (w - 1)) ≤ v ∧ v < 2 ^ (8 * w) ∧ width v = w := by
  by_cases h3 : v < 2 ^ 24
  · have hl : 2 ^ 16 ≤ v := by norm_num; omega
    exact ⟨3, by norm_num, by norm_num, hl, h3, width_eq v 3 (by norm_num) (by norm_num) hl h3⟩
  · by_cases h4 : v < 2 ^ 32
    · have hl : 2 ^ 24 ≤ v := by omega
      exact ⟨4, by norm_num, by norm_num, hl, h4, width_eq v 4 (by norm_num) (by norm_num) hl h4⟩
    · by_cases h5 : v < 2 ^ 40
      · have hl : 2 ^ 32 ≤ v := by omega
        exact ⟨5, by norm_num, by norm_num, hl, h5, width_eq v 5 (by norm_num) (by norm_num) hl h5⟩
      · by_cases h6 : v < 2 ^ 48
        · have hl : 2 ^ 40 ≤ v := by omega
          exact ⟨6, by norm_num, by norm_num, hl, h6,
            width_eq v 6 (by norm_num) (by norm_num) hl h6⟩
        · by_cases h7 : v < 2 ^ 56
          · have hl : 2 ^ 48 ≤ v := by omega
            exact ⟨7, by norm_num, by norm_num, hl, h7,
              width_eq v 7 (by norm_num) (by norm_num) hl h7⟩
          · have hl : 2 ^ 56 ≤ v := by omega
            exact ⟨8, by norm_num, by norm_num, hl, hhi,
              width_eq v 8 (by norm_num) (by norm_num) hl hhi⟩

/-! ### Big-endian byte lists -/

theorem beBytes_length : ∀ w v, (beBytes w v).length = w
  | 0, _ => rfl
  | w + 1, v => by simp [beBytes, beBytes_length w v]

theorem beBytes_mod : ∀ w v, beBytes w (v % 256 ^ w) = beBytes w v := by
  intro w
  induction w with
  | zero => intro v; rfl
  | succ w ih =>
    intro v
    simp only [beBytes]
    congr 1
    · rw [pow_succ, Nat.mod_mul_right_div_self]
      omega
    · calc beBytes w (v % 256 ^ (w + 1))
          = beBytes w (v % 256 ^ (w + 1) % 256 ^ w) := (ih _).symm
        _ = beBytes w (v % 256 ^ w) := by
            rw [Nat.mod_mod_of_dvd _ (pow_dvd_pow 256 (by omega))]
        _ = beBytes w v := ih v

theorem foldl_beBytes : ∀ w v acc, v < 256 ^ w →
    List.foldl (fun acc b => acc * 256 + b) acc (beBytes w v) = acc * 256 ^ w + v := by
  intro w
  induction w with
  | zero =>
    intro v acc hv
    simp only [beBytes, List.foldl, pow_zero] at hv ⊢
    omega
  | succ w ih =>
    intro v acc hv
    simp only [beBytes, List.foldl]
    rw [← beBytes_mod w v]
    have hB : (0 : Nat) < 256 ^ w := pow_pos (by norm_num) w
    have hdlt : v / 256 ^ w < 256 := by
      rw [Nat.div_lt_iff_lt_mul hB]
      calc v < 256 ^ (w + 1) := hv
        _ = 256 * 256 ^ w := by ring
    rw [ih (v % 256 ^ w) _ (Nat.mod_lt _ hB), Nat.mod_eq_of_lt hdlt]
    calc (acc * 256 + v / 256 ^ w) * 256 ^ w + v % 256 ^ w
        = acc * (256 ^ w * 256) + (256 ^ w * (v / 256 ^ w) + v % 256 ^ w) := by ring
      _ = acc * 256 ^ (w + 1) + v := by rw [← pow_succ, Nat.div_add_mod]

theorem u64_from_be_bytes_beBytes (w v : Nat) (hv : v < 256 ^ w) :
    u64_from_be_bytes (beBytes w v) = v := by
  unfold u64_from_be_bytes
  rw [foldl_beBytes w v 0 hv]
  ring

theorem u64_from_be_bytes_replicate_zero :
    ∀ k l, u64_from_be_bytes (List.replicate k 0 ++ l) = u64_from_be_bytes l := by
  intro k
  induction k with
  | zero => intro l; simp
  | succ k ih =>
    intro l
    have : u64_from_be_bytes (List.replicate (k + 1) 0 ++ l)
        = (List.replicate k 0 ++ l).foldl (fun acc b => acc * 256 + b) (0 * 256 + 0) := by
      simp [u64_from_be_bytes, List.replicate_succ]
    rw [this, show (0 * 256 + 0 : Nat) = 0 by norm_num]
    exact ih l

theorem pow256_eq (w : Nat) : (256 : Nat) ^ w = 2 ^ (8 * w) := by
  rw [show (256 : Nat) = 2 ^ 8 from rfl, ← pow_mul]

theorem drop_to_beBytes (v w : Nat) (hw : w ≤ 8) :
    (to_be_bytes v).drop (8 - w) = beBytes w v := by
  interval_cases w <;>
    simp [to_be_bytes, beBytes, Nat.shiftRight_eq_div_pow]

/-! ### Encoder branch normal forms -/

theorem encode_tier1 (v : Nat) (h : v ≤ 0xf0) : write_bvarint v = [v] := by
  simp [write_bvarint, h, Nat.mod_eq_of_lt (show v < 256 by omega)]

theorem encode_tier2 (v : Nat) (h1 : 0xf1 ≤ v) (h2 : v ≤ 0x7ef) :
    write_bvarint v = [(v - 0xf0) / 256 + 0xf1, (v - 0xf0) % 256] := by
  have hn : ¬ v ≤ 0xf0 := by omega
  simp only [write_bvarint, if_neg hn, if_pos h2, Nat.shiftRight_eq_div_pow,
    List.cons.injEq, and_true]
  norm_num
  omega

theorem encode_tier3 (v : Nat) (h1 : 0x7f0 ≤ v) (h2 : v ≤ 0x107ef) :
    write_bvarint v = [0xf8, (v - 0x7f0) / 256, (v - 0x7f0) % 256] := by
  have hn1 : ¬ v ≤ 0xf0 := by omega
  have hn2 : ¬ v ≤ 0x7ef := by omega
  simp only [write_bvarint, if_neg hn1, if_neg hn2, if_pos h2,
    Nat.shiftRight_eq_div_pow, List.cons.injEq, and_true]
  norm_num
  omega

theorem encode_tier4 (v : Nat) (h1 : 0x107f0 ≤ v) (hv : v < 2 ^ 64) :
    ∃ w, 3 ≤ w ∧ w ≤ 8 ∧ 2 ^ (8 * (w - 1)) ≤ v ∧ v < 2 ^ (8 * w) ∧ width v = w ∧
      write_bvarint v = (0xf6 + w) :: beBytes w v := by
  obtain ⟨w, h3, h8, hlo, hhi, hw⟩ := exists_width v h1 hv
  refine ⟨w, h3, h8, hlo, hhi, hw, ?_⟩
  have hn1 : ¬ v ≤ 0xf0 := by omega
  have hn2 : ¬ v ≤ 0x7ef := by omega
  have hn3 : ¬ v ≤ 0x107ef := by omega
  simp only [write_bvarint, if_neg hn1, if_neg hn2, if_neg hn3, hw]
  rw [drop_to_beBytes v w h8]
  congr 1
  omega

/-! ### Decoder branch normal forms -/

theorem read_single (a : Nat) (rest : List Nat) (h : a ≤ 0xf0) :
    read_bvarint (a :: rest) = (Except.ok a, rest) := by
  simp [read_bvarint, h]

theorem read_two (a b : Nat) (rest : List Nat) (h1 : 0xf1 ≤ a) (h2 : a ≤ 0xf7) :
    read_bvarint (a :: b :: rest) = (Except.ok (0xf0 + (a - 0xf1) * 256 + b), rest) := by
  have hn : ¬ a ≤ 0xf0 := by omega
  simp only [read_bvarint, if_neg hn, if_pos h2, Nat.shiftLeft_eq]

theorem read_three (a b : Nat) (rest : List Nat) :
    read_bvarint (0xf8 :: a :: b :: rest) = (Except.ok (0x7f0 + a * 256 + b), rest) := by
  simp only [read_bvarint, Nat.shiftLeft_eq]
  norm_num

theorem read_general (a : Nat) (payload rest : List Nat) (h1 : 0xf9 ≤ a) (h2 : a ≤ 0xfe)
    (hlen : payload.length = a - 0xf9 + 3) :
    read_bvarint (a :: (payload ++ rest)) =
      (Except.ok (u64_from_be_bytes
        (List.replicate (8 - (a - 0xf9 + 3)) 0 ++ payload)), rest) := by
  have hn1 : ¬ a ≤ 0xf0 := by omega
  have hn2 : ¬ a ≤ 0xf7 := by omega
  have hn3 : ¬ a = 0xf8 := by omega
  have hcond : a - 0xf9 + 3 ≤ (payload ++ rest).length := by
    simp [List.length_append, hlen]
  simp only [read_bvarint, if_neg hn1, if_neg hn2, if_neg hn3, if_pos h2, if_pos hcond]
  rw [List.take_left' hlen, List.drop_left' hlen]

/-! ### Round trip -/

theorem read_write_append (v : Nat) (hv : v < 2 ^ 64) (s : List Nat) :
    read_bvarint (write_bvarint v ++ s) = (Except.ok v, s) := by
  by_cases h1 : v ≤ 0xf0
  · rw [encode_tier1 v h1]
    simpa using read_single v s h1
  · by_cases h2 : v ≤ 0x7ef
    · rw [encode_tier2 v (by omega) h2]
      have h := read_two ((v - 0xf0) / 256 + 0xf1) ((v - 0xf0) % 256) s (by omega) (by omega)
      have hval : 0xf0 + ((v - 0xf0) / 256 + 0xf1 - 0xf1) * 256 + (v - 0xf0) % 256 = v := by
        omega
      rw [hval] at h
      simpa using h
    · by_cases h3 : v ≤ 0x107ef
      · rw [encode_tier3 v (by omega) h3]
        have h := read_three ((v - 0x7f0) / 256) ((v - 0x7f0) % 256) s
        have hval : 0x7f0 + ((v - 0x7f0) / 256) * 256 + (v - 0x7f0) % 256 = v := by omega
        rw [hval] at h
        simpa using h
      · obtain ⟨w, h3w, h8w, hlo, hhi, hwv, henc⟩ := encode_tier4 v (by omega) hv
        rw [henc, List.cons_append]
        have hlen : (beBytes w v).length = 0xf6 + w - 0xf9 + 3 := by
          rw [beBytes_length]; omega
        have h := read_general (0xf6 + w) (beBytes w v) s (by omega) (by omega) hlen
        rw [h, show 0xf6 + w - 0xf9 + 3 = w by omega,
          u64_from_be_bytes_replicate_zero,
          u64_from_be_bytes_beBytes w v (by rw [pow256_eq]; exact hhi)]

/-! ### Comparison lemmas -/

theorem cmp_lt {a b : Nat} (h : a < b) : cmp a b = Ordering.lt := by
  simp [cmp, h]

theorem cmp_self (a : Nat) : cmp a a = Ordering.eq := by
  simp [cmp]

theorem cmp_gt {a b : Nat} (h : b < a) : cmp a b = Ordering.gt := by
  unfold cmp
  rw [if_neg (by omega), if_neg (by omega)]

theorem cmp_swap (a b : Nat) : cmp b a = (cmp a b).swap := by
  unfold cmp
  split_ifs <;> first | rfl | omega

theorem cmp_add_left (t a b : Nat) : cmp (t + a) (t + b) = cmp a b := by
  unfold cmp
  split_ifs <;> first | rfl | omega

theorem cmp_div_mod (B u v : Nat) (hq : u / B = v / B) :
    cmp u v = cmp (u % B) (v % B) := by
  have h1 : u = B * (u / B) + u % B := (Nat.div_add_mod u B).symm
  have h2 : v = B * (v / B) + v % B := (Nat.div_add_mod v B).symm
  rw [hq] at h1
  set a := u % B with ha
  set b := v % B with hb
  set t := B * (v / B) with ht
  rw [h1, h2, cmp_add_left]

theorem lexCompare_cons (a b : Nat) (xs ys : List Nat) :
    lexCompare (a :: xs) (b :: ys) =
      match cmp a b with
      | Ordering.eq => lexCompare xs ys
      | o => o := rfl

theorem lexCompare_cons_self (a : Nat) (xs ys : List Nat) :
    lexCompare (a :: xs) (a :: ys) = lexCompare xs ys := by
  rw [lexCompare_cons, cmp_self]

theorem head_lt_lex {a b : Nat} (xs ys : List Nat) (h : a < b) :
    lexCompare (a :: xs) (b :: ys) = Ordering.lt := by
  rw [lexCompare_cons, cmp_lt h]

theorem lexCompare_self : ∀ l : List Nat, lexCompare l l = Ordering.eq
  | [] => rfl
  | a :: l => by rw [lexCompare_cons_self, lexCompare_self l]

theorem lexCompare_swap (l1 : List Nat) :
    ∀ l2, lexCompare l2 l1 = (lexCompare l1 l2).swap := by
  induction l1 with
  | nil => intro l2; cases l2 <;> rfl
  | cons a l1 ih =>
    intro l2
    cases l2 with
    | nil => rfl
    | cons b l2 =>
      rw [lexCompare_cons, lexCompare_cons, cmp_swap a b]
      cases cmp a b with
      | lt => rfl
      | eq => exact ih l2
      | gt => rfl

theorem lt_of_div_lt_div {B u v : Nat} (hB : 0 < B) (h : u / B < v / B) : u < v :=
  calc u = B * (u / B) + u % B := (Nat.div_add_mod u B).symm
    _ < B * (u / B) + B := add_lt_add_left (Nat.mod_lt u hB) _
    _ = B * (u / B + 1) := by ring
    _ ≤ B * (v / B) := Nat.mul_le_mul_left B (by omega)
    _ ≤ B * (v / B) + v % B := Nat.le_add_right _ _
    _ = v := Nat.div_add_mod v B

theorem beBytes_lex : ∀ w u v, u < 256 ^ w → v < 256 ^ w →
    lexCompare (beBytes w u) (beBytes w v) = cmp u v := by
  intro w
  induction w with
  | zero =>
    intro u v hu hv
    simp only [pow_zero] at hu hv
    have hu0 : u = 0 := by omega
    have hv0 : v = 0 := by omega
    subst hu0; subst hv0
    rfl
  | succ w ih =>
    intro u v hu hv
    have hB : (0 : Nat) < 256 ^ w := pow_pos (by norm_num) w
    have hu' : u / 256 ^ w < 256 := by
      rw [Nat.div_lt_iff_lt_mul hB]
      calc u < 256 ^ (w + 1) := hu
        _ = 256 * 256 ^ w := by ring
    have hv' : v / 256 ^ w < 256 := by
      rw [Nat.div_lt_iff_lt_mul hB]
      calc v < 256 ^ (w + 1) := hv
        _ = 256 * 256 ^ w := by ring
    simp only [beBytes]
    rw [Nat.mod_eq_of_lt hu', Nat.mod_eq_of_lt hv', lexCompare_cons]
    rcases Nat.lt_trichotomy (u / 256 ^ w) (v / 256 ^ w) with h | h | h
    · rw [cmp_lt h, cmp_lt (lt_of_div_lt_div hB h)]
    · rw [h, cmp_self]
      show lexCompare (beBytes w u) (beBytes w v) = cmp u v
      rw [← beBytes_mod w u, ← beBytes_mod w v,
        ih (u % 256 ^ w) (v % 256 ^ w) (Nat.mod_lt u hB) (Nat.mod_lt v hB)]
      exact (cmp_div_mod (256 ^ w) u v h).symm
    · rw [cmp_gt h, cmp_gt (lt_of_div_lt_div hB h)]

/-! ### Strict order preservation of the encoder -/

theorem encode_lt_of_lt (x y : Nat) (hy : y < 2 ^ 64) (hxy : x < y) :
    lexCompare (write_bvarint x) (write_bvarint y) = Ordering.lt := by
  by_cases hy1 : y ≤ 0xf0
  · rw [encode_tier1 x (by omega), encode_tier1 y hy1]
    exact head_lt_lex _ _ hxy
  · by_cases hy2 : y ≤ 0x7ef
    · rw [encode_tier2 y (by omega) hy2]
      by_cases hx1 : x ≤ 0xf0
      · rw [encode_tier1 x hx1]
        exact head_lt_lex _ _ (by omega)
      · rw [encode_tier2 x (by omega) (by omega)]
        rcases Nat.lt_trichotomy ((x - 0xf0) / 256) ((y - 0xf0) / 256) with h | h | h
        · exact head_lt_lex _ _ (by omega)
        · rw [h, lexCompare_cons_self]
          exact head_lt_lex _ _ (by omega)
        · exfalso; omega
    · by_cases hy3 : y ≤ 0x107ef
      · rw [encode_tier3 y (by omega) hy3]
        by_cases hx1 : x ≤ 0xf0
        · rw [encode_tier1 x hx1]
          exact head_lt_lex _ _ (by omega)
        · by_cases hx2 : x ≤ 0x7ef
          · rw [encode_tier2 x (by omega) hx2]
            exact head_lt_lex _ _ (by omega)
          · rw [encode_tier3 x (by omega) (by omega), lexCompare_cons_self]
            rcases Nat.lt_trichotomy ((x - 0x7f0) / 256) ((y - 0x7f0) / 256) with h | h | h
            · exact head_lt_lex _ _ h
            · rw [h, lexCompare_cons_self]
              exact head_lt_lex _ _ (by omega)
            · exfalso; omega
      · obtain ⟨wy, hwy3, hwy8, hylo, hyhi, hwyv, hency⟩ := encode_tier4 y (by omega) hy
        rw [hency]
        by_cases hx1 : x ≤ 0xf0
        · rw [encode_tier1 x hx1]
          exact head_lt_lex _ _ (by omega)
        · by_cases hx2 : x ≤ 0x7ef
          · rw [encode_tier2 x (by omega) hx2]
            exact head_lt_lex _ _ (by omega)
          · by_cases hx3 : x ≤ 0x107ef
            · rw [encode_tier3 x (by omega) hx3]
              exact head_lt_lex _ _ (by omega)
            · obtain ⟨wx, hwx3, hwx8, hxlo, hxhi, hwxv, hencx⟩ :=
                encode_tier4 x (by omega) (by omega)
              rw [hencx]
              rcases Nat.lt_trichotomy wx wy with h | h | h
              · exact head_lt_lex _ _ (by omega)
              · subst h
                rw [lexCompare_cons_self,
                  beBytes_lex wx x y (by rw [pow256_eq]; exact hxhi)
                    (by rw [pow256_eq]; exact hyhi)]
                exact cmp_lt hxy
              · exfalso
                have hp : (2 : Nat) ^ (8 * wy) ≤ 2 ^ (8 * (wx - 1)) :=
                  Nat.pow_le_pow_right (by norm_num) (by omega)
                omega

/-! ### Truncated inputs -/

theorem read_two_trunc (a : Nat) (h1 : 0xf1 ≤ a) (h2 : a ≤ 0xf7) :
    read_bvarint [a] = (Except.error ReadErr.truncated, []) := by
  have hn : ¬ a ≤ 0xf0 := by omega
  simp only [read_bvarint, if_neg hn, if_pos h2]

theorem read_three_trunc1 : read_bvarint [0xf8] = (Except.error ReadErr.truncated, []) := by
  decide

theorem read_three_trunc2 (b : Nat) :
    read_bvarint [0xf8, b] = (Except.error ReadErr.truncated, []) := by
  norm_num [read_bvarint]

theorem read_general_trunc (a : Nat) (p : List Nat) (h1 : 0xf9 ≤ a) (h2 : a ≤ 0xfe)
    (hlen : p.length < a - 0xf9 + 3) :
    read_bvarint (a :: p) = (Except.error ReadErr.truncated, []) := by
  have hn1 : ¬ a ≤ 0xf0 := by omega
  have hn2 : ¬ a ≤ 0xf7 := by omega
  have hn3 : ¬ a = 0xf8 := by omega
  have hc : ¬ (a - 0xf9 + 3 ≤ p.length) := by omega
  simp only [read_bvarint, if_neg hn1, if_neg hn2, if_neg hn3, if_pos h2, if_neg hc]

/-! ### Shape and length of encodings -/

theorem encode_shape (v : Nat) (hv : v < 2 ^ 64) :
    ∃ h t, write_bvarint v = h :: t ∧ h ≤ 0xfe ∧ 1 + t.length ≤ 9 := by
  by_cases h1 : v ≤ 0xf0
  · exact ⟨v, [], encode_tier1 v h1, by omega, by norm_num⟩
  · by_cases h2 : v ≤ 0x7ef
    · exact ⟨(v - 0xf0) / 256 + 0xf1, [(v - 0xf0) % 256], encode_tier2 v (by omega) h2,
        by omega, by norm_num⟩
    · by_cases h3 : v ≤ 0x107ef
      · exact ⟨0xf8, [(v - 0x7f0) / 256, (v - 0x7f0) % 256], encode_tier3 v (by omega) h3,
          by omega, by norm_num⟩
      · obtain ⟨w, h3w, h8w, _, _, _, henc⟩ := encode_tier4 v (by omega) hv
        exact ⟨0xf6 + w, beBytes w v, henc, by omega, by rw [beBytes_length]; omega⟩

theorem encode_length (v : Nat) (hv : v < 2 ^ 64) :
    (write_bvarint v).length =
      if v ≤ 0xf0 then 1 else if v ≤ 0x7ef then 2 else if v ≤ 0x107ef then 3
      else 1 + width v := by
  by_cases h1 : v ≤ 0xf0
  · rw [encode_tier1 v h1, if_pos h1]
    rfl
  · by_cases h2 : v ≤ 0x7ef
    · rw [encode_tier2 v (by omega) h2, if_neg h1, if_pos h2]
      rfl
    · by_cases h3 : v ≤ 0x107ef
      · rw [encode_tier3 v (by omega) h3, if_neg h1, if_neg h2, if_pos h3]
        rfl
      · obtain ⟨w, _, _, _, _, hwv, henc⟩ := encode_tier4 v (by omega) hv
        rw [henc, if_neg h1, if_neg h2, if_neg h3]
        simp only [List.length_cons, beBytes_length, hwv]
        omega

theorem width_mono (x y : Nat) (hx : 0x107f0 ≤ x) (hy : y < 2 ^ 64) (hxy : x ≤ y) :
    width x ≤ width y := by
  obtain ⟨wx, _, _, hxlo, hxhi, hwx⟩ := exists_width x hx (by omega)
  obtain ⟨wy, _, _, hylo, hyhi, hwy⟩ := exists_width y (by omega) hy
  rw [hwx, hwy]
  by_contra h
  push_neg at h
  have hp : (2 : Nat) ^ (8 * wy) ≤ 2 ^ (8 * (wx - 1)) :=
    Nat.pow_le_pow_right (by norm_num) (by omega)
  omega

/-! ### Claim theorems -/

/-- Claim C1 (round trip): for every `u64` value `x`, encoding `x` with
`write_bvarint` and then decoding the produced byte sequence with
`read_bvarint` succeeds and returns `x` (with the whole input consumed). -/
theorem spec_round_trip (v : Nat) (hv : v < 2 ^ 64) :
    read_bvarint (write_bvarint v) = (Except.ok v, []) := by
  have h := read_write_append v hv []
  simpa using h

theorem spec_round_trip_witness :
    70000 < 2 ^ 64 ∧ read_bvarint (write_bvarint 70000) = (Except.ok 70000, []) :=
  ⟨by norm_num, spec_round_trip 70000 (by norm_num)⟩

/-- Claim C2 (order preservation): for every pair of `u64` values `x`, `y`,
the numeric comparison `x.cmp(y)` equals the lexicographic byte-sequence
comparison of `write_bvarint`'s output for `x` with its output for `y`. -/
theorem spec_order_preservation (x y : Nat) (hx : x < 2 ^ 64) (hy : y < 2 ^ 64) :
    cmp x y = lexCompare (write_bvarint x) (write_bvarint y) := by
  rcases Nat.lt_trichotomy x y with h | h | h
  · rw [cmp_lt h, encode_lt_of_lt x y hy h]
  · subst h
    rw [cmp_self, lexCompare_self]
  · rw [cmp_gt h, lexCompare_swap, encode_lt_of_lt y x hx h]
    rfl

theorem spec_order_preservation_witness :
    3 < 2 ^ 64 ∧ 70000 < 2 ^ 64 ∧
      cmp 3 70000 = lexCompare (write_bvarint 3) (write_bvarint 70000) :=
  ⟨by norm_num, by norm_num, spec_order_preservation 3 70000 (by norm_num) (by norm_num)⟩

/-- Claim C3 (tier layout and boundary exactness): the encoder partitions the
`u64` range into four adjacent tiers — `0..=0xf0` a single byte equal to the
value; `0xf1..=0x7ef` two bytes `[0xf1 + (d >> 8), d & 0xff]` with
`d = v - 0xf0`; `0x7f0..=0x107ef` three bytes `0xf8` plus the big-endian
16-bit form of `v - 0x7f0`; `0x107f0..` the leading byte `0xf9 - 3 + width`
followed by the `width`-byte minimal big-endian payload, `width` being the
minimal big-endian byte width (`2^(8(w-1)) ≤ v < 2^(8w)`) — the tiers are
adjacent with no gap or overlap, and at each boundary the encodings differ by
one step in leading byte or payload (shown on the concrete boundary pairs). -/
theorem spec_tier_layout :
    (∀ v, v ≤ 0xf0 → write_bvarint v = [v]) ∧
    (∀ v, 0xf1 ≤ v → v ≤ 0x7ef →
      write_bvarint v = [0xf1 + (v - 0xf0) / 256, (v - 0xf0) % 256]) ∧
    (∀ v, 0x7f0 ≤ v → v ≤ 0x107ef →
      write_bvarint v = [0xf8, (v - 0x7f0) / 256, (v - 0x7f0) % 256]) ∧
    (∀ v, 0x107f0 ≤ v → v < 2 ^ 64 → ∃ w, 3 ≤ w ∧ w ≤ 8 ∧
      2 ^ (8 * (w - 1)) ≤ v ∧ v < 2 ^ (8 * w) ∧
      write_bvarint v = (0xf9 - 3 + w) :: beBytes w v) ∧
    (0xf0 + 1 = 0xf1 ∧ 0x7ef + 1 = 0x7f0 ∧ 0x107ef + 1 = 0x107f0) ∧
    (write_bvarint 0xf0 = [0xf0] ∧ write_bvarint 0xf1 = [0xf1, 0x01] ∧
      write_bvarint 0x7ef = [0xf7, 0xff] ∧ write_bvarint 0x7f0 = [0xf8, 0x00, 0x00] ∧
      write_bvarint 0x107ef = [0xf8, 0xff, 0xff] ∧
      write_bvarint 0x107f0 = [0xf9, 0x01, 0x07, 0xf0]) := by
  refine ⟨fun v h => encode_tier1 v h, ?_, fun v h1 h2 => encode_tier3 v h1 h2, ?_,
    ⟨rfl, rfl, rfl⟩, by decide⟩
  · intro v h1 h2
    rw [encode_tier2 v h1 h2, Nat.add_comm ((v - 0xf0) / 256) 0xf1]
  · intro v h1 h2
    obtain ⟨w, h3, h8, hlo, hhi, _, henc⟩ := encode_tier4 v h1 h2
    refine ⟨w, h3, h8, hlo, hhi, ?_⟩
    rw [henc]

theorem spec_tier_layout_witness :
    write_bvarint 0x123 = [0xf1 + (0x123 - 0xf0) / 256, (0x123 - 0xf0) % 256] :=
  spec_tier_layout.2.1 0x123 (by norm_num) (by norm_num)

/-- Claim C4 (exact consumption / framing): for every `u64` value `x` and
every byte sequence `s`, running `read_bvarint` on `write_bvarint x ++ s`
returns `x` and consumes exactly the bytes of the encoding, leaving `s`
unread; hence concatenated encodings decode sequentially with no framing. -/
theorem spec_exact_consumption (v : Nat) (hv : v < 2 ^ 64) (s : List Nat) :
    read_bvarint (write_bvarint v ++ s) = (Except.ok v, s) :=
  read_write_append v hv s

theorem spec_exact_consumption_witness :
    300 < 2 ^ 64 ∧
      read_bvarint (write_bvarint 300 ++ [1, 2]) = (Except.ok 300, [1, 2]) :=
  ⟨by norm_num, spec_exact_consumption 300 (by norm_num) [1, 2]⟩

/-- Claim C5 (encoder totality and output bound): for every `u64` value, the
encoder writes between 1 and 9 bytes and never produces the leading byte
`0xff`.  The sink is modelled as the always-succeeding byte-list sink, and
`write_bvarint` is a total function on values: it has no failure mode of its
own, only sink I/O errors would be propagated in the Rust code. -/
theorem spec_encoder_total (v : Nat) (hv : v < 2 ^ 64) :
    1 ≤ (write_bvarint v).length ∧ (write_bvarint v).length ≤ 9 ∧
      (write_bvarint v).head? ≠ some 0xff := by
  obtain ⟨h, t, henc, hle, hlen⟩ := encode_shape v hv
  rw [henc]
  refine ⟨by simp only [List.length_cons]; omega, by simp only [List.length_cons]; omega, ?_⟩
  simp only [List.head?_cons, ne_eq, Option.some.injEq]
  omega

theorem spec_encoder_total_witness :
    0 < 2 ^ 64 ∧ (1 ≤ (write_bvarint 0).length ∧ (write_bvarint 0).length ≤ 9 ∧
      (write_bvarint 0).head? ≠ some 0xff) :=
  ⟨by norm_num, spec_encoder_total 0 (by norm_num)⟩

/-- Claim C6 (truncation detection): for every `u64` value `x`, running
`read_bvarint` on any strict prefix of `write_bvarint x` (including the
empty sequence) fails with the end-of-input/truncation error, which is a
different error from the out-of-range error used for the `0xff` sentinel. -/
theorem spec_truncation_detection :
    (∀ v n, v < 2 ^ 64 → n < (write_bvarint v).length →
      (read_bvarint ((write_bvarint v).take n)).1 = Except.error ReadErr.truncated) ∧
    ReadErr.truncated ≠ ReadErr.outOfRange := by
  refine ⟨?_, by decide⟩
  intro v n hv hn
  by_cases h1 : v ≤ 0xf0
  · rw [encode_tier1 v h1] at hn ⊢
    simp only [List.length_singleton] at hn
    interval_cases n
    rfl
  · by_cases h2 : v ≤ 0x7ef
    · rw [encode_tier2 v (by omega) h2] at hn ⊢
      have hn2 : n < 2 := by simpa using hn
      interval_cases n
      · rfl
      · simp only [List.take_succ_cons, List.take_zero]
        rw [read_two_trunc _ (by omega) (by omega)]
    · by_cases h3 : v ≤ 0x107ef
      · rw [encode_tier3 v (by omega) h3] at hn ⊢
        have hn3 : n < 3 := by simpa using hn
        interval_cases n
        · rfl
        · simp only [List.take_succ_cons, List.take_zero]
          rw [read_three_trunc1]
        · simp only [List.take_succ_cons, List.take_zero]
          rw [read_three_trunc2]
      · obtain ⟨w, h3w, h8w, hlo, hhi, hwv, henc⟩ := encode_tier4 v (by omega) hv
        rw [henc] at hn ⊢
        simp only [List.length_cons, beBytes_length] at hn
        cases n with
        | zero => rfl
        | succ m =>
          rw [List.take_succ_cons]
          rw [read_general_trunc (0xf6 + w) ((beBytes w v).take m) (by omega) (by omega) ?_]
          rw [List.length_take, beBytes_length]
          omega

theorem spec_truncation_detection_witness :
    (read_bvarint ((write_bvarint 0x107f0).take 2)).1 = Except.error ReadErr.truncated :=
  spec_truncation_detection.1 0x107f0 2 (by norm_num) (by decide)

/-- Claim C7 (sentinel rejection): for every input byte sequence whose first
byte is `0xff` (including the lone `[0xff]`), `read_bvarint` fails with the
out-of-range error after reading only that first byte, consuming no further
bytes of the input. -/
theorem spec_sentinel_rejection (s : List Nat) :
    read_bvarint (0xff :: s) = (Except.error ReadErr.outOfRange, s) := rfl

/-- Claim C8 (length monotonicity): for every pair of `u64` values `x ≤ y`,
the length of `write_bvarint x` is at most the length of `write_bvarint y`. -/
theorem spec_length_monotone (x y : Nat) (hx : x < 2 ^ 64) (hy : y < 2 ^ 64)
    (hxy : x ≤ y) : (write_bvarint x).length ≤ (write_bvarint y).length := by
  rw [encode_length x hx, encode_length y hy]
  have hw : 0x107ef < x → width x ≤ width y := fun h =>
    width_mono x y (by omega) hy hxy
  have hy4 : 0x107ef < y → 3 ≤ width y := by
    intro h
    obtain ⟨w, h3, _, _, _, hwv⟩ := exists_width y (by omega) hy
    omega
  split_ifs <;> first
    | omega
    | (have h1 := hy4 (by omega); omega)
    | (have h1 := hy4 (by omega); have h2 := hw (by omega); omega)

theorem spec_length_monotone_witness :
    5 < 2 ^ 64 ∧ 70000 < 2 ^ 64 ∧ 5 ≤ 70000 ∧
      (write_bvarint 5).length ≤ (write_bvarint 70000).length :=
  ⟨by norm_num, by norm_num, by norm_num,
    spec_length_monotone 5 70000 (by norm_num) (by norm_num) (by norm_num)⟩

/-- Claim C9 (non-canonical encodings are accepted): the decoder's general
form accepts payloads with leading zero bytes that the encoder never
produces: `[0xf9, 0x00, 0x00, 0x05]` decodes to `5`, which the encoder
writes as the single byte `[0x05]`, so decoding is not injective over the
byte sequences it accepts. -/
theorem spec_noncanonical_accepted :
    read_bvarint [0xf9, 0x00, 0x00, 0x05] = (Except.ok 5, []) ∧
    write_bvarint 5 = [5] ∧
    ([0xf9, 0x00, 0x00, 0x05] : List Nat) ≠ write_bvarint 5 ∧
    read_bvarint [0x05] = (Except.ok 5, []) := by
  decide

/-- Claim C10 (internal arithmetic and indexing safety): the guarded
subtractions in both encoder and decoder never underflow, the general-branch
`width` lies in `3..=8` (so `debug_assert!(width >= 3)` holds), the leading
byte `0xf9 - 3 + width` never exceeds `0xfe`, and the slices
`a[(8 - width)..]` and `a[(8 - width)..8]` are in bounds. -/
theorem spec_arith_safety :
    (∀ v, 0xf1 ≤ v → v ≤ 0x7ef → 0xf0 + (v - 0xf0) = v) ∧
    (∀ v, 0x7f0 ≤ v → v ≤ 0x107ef → 0x7f0 + (v - 0x7f0) = v) ∧
    (∀ v, 0x107f0 ≤ v → v < 2 ^ 64 →
      3 ≤ width v ∧ width v ≤ 8 ∧ 0xf9 - 3 + width v ≤ 0xfe ∧
        8 - width v + width v = 8 ∧
        ((to_be_bytes v).drop (8 - width v)).length = width v) ∧
    (∀ b, 0xf1 ≤ b → b ≤ 0xf7 → b - 0xf1 ≤ 6 ∧ 0xf1 + (b - 0xf1) = b) ∧
    (∀ b, 0xf9 ≤ b → b ≤ 0xfe →
      3 ≤ b - 0xf9 + 3 ∧ b - 0xf9 + 3 ≤ 8 ∧ 8 - (b - 0xf9 + 3) + (b - 0xf9 + 3) = 8) := by
  refine ⟨fun v h1 h2 => by omega, fun v h1 h2 => by omega, ?_,
    fun b h1 h2 => by omega, fun b h1 h2 => by omega⟩
  intro v h1 h2
  obtain ⟨w, h3, h8, _, _, hwv⟩ := exists_width v h1 h2
  rw [hwv, drop_to_beBytes v w h8, beBytes_length]
  omega

theorem spec_arith_safety_witness :
    3 ≤ width 0x107f0 ∧ width 0x107f0 ≤ 8 ∧ 0xf9 - 3 + width 0x107f0 ≤ 0xfe ∧
      8 - width 0x107f0 + width 0x107f0 = 8 ∧
      ((to_be_bytes 0x107f0).drop (8 - width 0x107f0)).length = width 0x107f0 :=
  spec_arith_safety.2.2.1 0x107f0 (by norm_num) (by norm_num)

end Bvarint
